import Mathlib

/-
Verification of the Zhang+95 dead-time PSD model (stingray/deadtime/model.py).

The floating-point program is embedded shallowly over the real numbers:
every float becomes a real, Python integers become naturals, and fallible
steps (an out-of-range index into the inverse-factorial table, the division
by `len(P)` when that length is zero) are modelled with `Option`, where
`none` marks the failed access.  Loops that accumulate into a scalar and
abort on error are modelled with an explicit option-valued map (`mapOpt`)
over the list of loop indices, keeping the source's iteration ranges.
-/

open Classical

noncomputable section

/-- MAX_FACTORIAL = 100 in model.py. -/
def MAX_FACTORIAL : ℕ := 100

/-- The module-level table __INVERSE_FACTORIALS = 1.0 / factorial(np.arange(100)):
the list [1/0!, 1/1!, ..., 1/99!]. -/
def INVERSE_FACTORIALS : List ℝ :=
  (List.range MAX_FACTORIAL).map (fun m => 1 / (Nat.factorial m : ℝ))

/-- PRECISION = np.finfo(float).precision = 15. -/
def PRECISION : ℝ := 15

/-- TWOPI = np.pi * 2. -/
def TWOPI : ℝ := Real.pi * 2

/-- STERLING_PARAMETERS = [1/12, 1/288, -139/51840, -571/2488320]. -/
def STERLING_PARAMETERS : Fin 4 → ℝ :=
  ![1 / 12, 1 / 288, -139 / 51840, -571 / 2488320]

/-- sterling_factor(m) from model.py. -/
def sterling_factor (m : ℝ) : ℝ :=
  1 + STERLING_PARAMETERS 0 / m + STERLING_PARAMETERS 1 / m ^ 2
    + STERLING_PARAMETERS 2 / m ^ 3 + STERLING_PARAMETERS 3 / m ^ 4

/-- e_m_x_x_over_factorial(x, m) from model.py: approximates exp(-x) x^m / m!.
The unchecked read __INVERSE_FACTORIALS[m] is modelled by List.get?, so the
result is none exactly when the direct-formula branch reads past the table.
The branch test m * log10(x) < 50 uses Real.logb; as in NumPy (where
log10(0) = -inf), at x = 0 the direct branch is taken for every m. -/
def e_m_x_x_over_factorial (x : ℝ) (m : ℕ) : Option ℝ :=
  if x = 0 ∧ m = 0 then some 1
  else if (m : ℝ) * Real.logb 10 x < 50 then
    (INVERSE_FACTORIALS.get? m).map (fun invf => Real.exp (-x) * x ^ m * invf)
  else
    some (1 / Real.sqrt (TWOPI * m) * (x * Real.exp (1 - x / m) / m) ^ m
      / sterling_factor m)

/-- r_in(td, r_0) from model.py: incident countrate from detected countrate. -/
def r_in (td r_0 : ℝ) : ℝ :=
  1.0 / (1 / r_0 - td)

/-- r_det(td, r_i) from model.py: detected countrate from incident countrate. -/
def r_det (td r_i : ℝ) : ℝ :=
  1.0 / (1 / r_i + td)

/-- The loop body of Gn: iterates over the remaining values of m, accumulating
s += e_m_x_x_over_factorial(x, m) * (n - m) and stopping early (returning the
current sum) when x != 0, m > 2x and the last term is relatively negligible.
A none from the table read aborts the whole computation. -/
def GnLoop (x : ℝ) (n : ℕ) : ℝ → List ℕ → Option ℝ
  | s, [] => some s
  | s, m :: ms =>
    match e_m_x_x_over_factorial x m with
    | none => none
    | some e =>
      if x ≠ 0 ∧ 2 * x < (m : ℝ) ∧
          PRECISION < -Real.logb 10 |e * ((n : ℝ) - (m : ℝ)) / (s + e * ((n : ℝ) - (m : ℝ)))| then
        some (s + e * ((n : ℝ) - (m : ℝ)))
      else
        GnLoop x n (s + e * ((n : ℝ) - (m : ℝ))) ms

/-- Gn(x, n) from model.py: the loop for m in range(0, n). -/
def Gn (x : ℝ) (n : ℕ) : Option ℝ :=
  GnLoop x n 0 (List.range n)

/-- h(k, n, td, tb, tau) from model.py (term in Eq. 35 of Zhang+95). -/
def h (k n : ℕ) (td tb tau : ℝ) : Option ℝ :=
  if (k : ℝ) * tb - (n : ℝ) * td < 0 then some 0
  else
    (Gn (((k : ℝ) * tb - (n : ℝ) * td) / tau) n).map
      (fun g => (k : ℝ) - (n : ℝ) * (td + tau) / tb + tau / tb * g)

/-- Option-valued map over a list of loop indices: the loop runs left to
right and the whole computation aborts (none) at the first failing element. -/
def mapOpt (f : α → Option β) : List α → Option (List β)
  | [] => some []
  | a :: l =>
    match f a with
    | none => none
    | some b => (mapOpt f l).map (fun bs => b :: bs)

/-- A0(r0, td, tb, tau) from model.py: the loop for n in
range(1, int(max(1, tb / td + 1))), then r0 * tb * (1 + 2 * s). -/
def A0 (r0 td tb tau : ℝ) : Option ℝ :=
  (mapOpt (fun n => h 1 n td tb tau)
      (List.range' 1 (Nat.floor (max 1 (tb / td + 1)) - 1))).map
    (fun l => r0 * tb * (1 + 2 * l.sum))

/-- One summand of the k >= 1 loop of A_single_k:
h(k+1, n, ...) - 2 h(k, n, ...) + h(k-1, n, ...). -/
def A_term (k n : ℕ) (td tb tau : ℝ) : Option ℝ :=
  match h (k + 1) n td tb tau, h k n td tb tau, h (k - 1) n td tb tau with
  | some a, some b, some c => some (a - 2 * b + c)
  | _, _, _ => none

/-- A_single_k(k, r0, td, tb, tau) from model.py: A0 for k = 0, else the loop
for n in range(1, int(max(1, (k + 2) * tb / td)) * 3), then r0 * tb * s. -/
def A_single_k (k : ℕ) (r0 td tb tau : ℝ) : Option ℝ :=
  if k = 0 then A0 r0 td tb tau
  else
    (mapOpt (fun n => A_term k n td tb tau)
        (List.range' 1 (Nat.floor (max 1 (((k : ℝ) + 2) * tb / td)) * 3 - 1))).map
      (fun l => r0 * tb * l.sum)

/-- B_raw(k, r0, td, tb, tau) from model.py (term in Eq. 45 of Zhang+95). -/
def B_raw (k : ℕ) (r0 td tb tau : ℝ) : Option ℝ :=
  if k = 0 then
    (A_single_k 0 r0 td tb tau).map (fun a => 2 * (a - r0 ^ 2 * tb ^ 2) / (r0 * tb))
  else
    (A_single_k k r0 td tb tau).map (fun a => 4 * (a - r0 ^ 2 * tb ^ 2) / (r0 * tb))

/-- safe_B_single_k(k, r0, td, tb, tau, limit_k) from model.py. -/
def safe_B_single_k (k : ℕ) (r0 td tb tau : ℝ) (limit_k : ℕ) : Option ℝ :=
  if limit_k < k then some 0 else B_raw k r0 td tb tau

/-- The body of _inner_loop_pds_zhang for one frequency bin j:
the loop for k in range(1, min(N, limit_k)) accumulating
(N - k)/N * safe_B_single_k(k, ...) * cos(2 pi j k / N), then
P[j] = safe_B_single_k(0, ..., limit_k=60) + eq8_sum. -/
def pds_P_j (N : ℕ) (tau r0 td tb : ℝ) (limit_k : ℕ) (j : ℕ) : Option ℝ :=
  match
    mapOpt
      (fun k =>
        (safe_B_single_k k r0 td tb tau limit_k).map
          (fun b => ((N : ℝ) - (k : ℝ)) / (N : ℝ) * b *
            Real.cos (2 * Real.pi * (j : ℝ) * (k : ℝ) / (N : ℝ))))
      (List.range' 1 (min N limit_k - 1)),
    safe_B_single_k 0 r0 td tb tau 60 with
  | some terms, some b0 => some (b0 + terms.sum)
  | _, _ => none

/-- _inner_loop_pds_zhang(N, tau, r0, td, tb, limit_k) from model.py:
P has N // 2 entries, computed independently per j. -/
def inner_loop_pds_zhang (N : ℕ) (tau r0 td tb : ℝ) (limit_k : ℕ) : Option (List ℝ) :=
  mapOpt (pds_P_j N tau r0 td tb limit_k) (List.range (N / 2))

/-- np.arange(0, stop, step), modelled for positive step:
the list [0, step, 2*step, ...] of length ceil(stop / step). -/
def arange (stop step : ℝ) : List ℝ :=
  (List.range (Nat.ceil (stop / step))).map (fun (i : ℕ) => (i : ℝ) * step)

/-- pds_model_zhang(N, rate, td, tb, limit_k) from model.py.  The function
performs no precondition validation; the only failure modes are the table
overrun propagated from the inner loop and the Python ZeroDivisionError in
df = maxf / len(P) when len(P) = 0 (i.e. N < 2), both modelled as none. -/
def pds_model_zhang (N : ℕ) (rate td tb : ℝ) (limit_k : ℕ) : Option (List ℝ × List ℝ) :=
  match inner_loop_pds_zhang N (1 / rate) (r_det td rate) td tb limit_k with
  | none => none
  | some P =>
    if P.length = 0 then none
    else
      some (arange (0.5 / tb) ((0.5 / tb) / (P.length : ℝ)), P)

/-- The A(0) formula exactly as the spec states it (claim C4): the same
expression as A0, but with the sum over n = 1 .. N0 inclusive, where
N0 = max(1, tb/td + 1) rounded down. -/
def A0_spec (r0 td tb tau : ℝ) : Option ℝ :=
  (mapOpt (fun n => h 1 n td tb tau)
      (List.range' 1 (Nat.floor (max 1 (tb / td + 1))))).map
    (fun l => r0 * tb * (1 + 2 * l.sum))

/-- The A(k) formula (k >= 1) exactly as the spec states it (claim C3):
r0 * tb * the sum over n = 1 .. N_k inclusive of
h(k+1,n,...) - 2 h(k,n,...) + h(k-1,n,...), where
N_k = 3 * max(1, (k+2) * tb / td) rounded down. -/
def A_spec (k : ℕ) (r0 td tb tau : ℝ) : Option ℝ :=
  (mapOpt (fun n => A_term k n td tb tau)
      (List.range' 1 (Nat.floor (3 * max 1 (((k : ℝ) + 2) * tb / td))))).map
    (fun l => r0 * tb * l.sum)

end


/-! Helper lemmas about the inverse-factorial table. -/

lemma INVERSE_FACTORIALS_length : INVERSE_FACTORIALS.length = 100 := by
  simp [INVERSE_FACTORIALS, MAX_FACTORIAL]

lemma INVERSE_FACTORIALS_get_lt {m : ℕ} (hm : m < 100) :
    INVERSE_FACTORIALS.get? m = some (1 / (Nat.factorial m : ℝ)) := by
  rw [INVERSE_FACTORIALS, List.get?_map,
    List.get?_range (show m < MAX_FACTORIAL by simpa [MAX_FACTORIAL] using hm)]
  rfl

lemma INVERSE_FACTORIALS_get_ge {m : ℕ} (hm : 100 ≤ m) :
    INVERSE_FACTORIALS.get? m = none := by
  rw [List.get?_eq_none, INVERSE_FACTORIALS_length]
  exact hm

/-! Helper lemmas about e_m_x_x_over_factorial. -/

lemma em_isSome {m : ℕ} (x : ℝ) (hm : m < 100) :
    (e_m_x_x_over_factorial x m).isSome := by
  unfold e_m_x_x_over_factorial
  split
  · simp
  · split
    · rw [INVERSE_FACTORIALS_get_lt hm]
      simp
    · simp

lemma em_zero_zero : e_m_x_x_over_factorial 0 0 = some 1 := by
  unfold e_m_x_x_over_factorial
  rw [if_pos ⟨rfl, rfl⟩]

lemma em_zero_succ {m : ℕ} (h1 : 1 ≤ m) (hm : m < 100) :
    e_m_x_x_over_factorial 0 m = some 0 := by
  unfold e_m_x_x_over_factorial
  rw [if_neg (by rintro ⟨-, h2⟩; omega),
    if_pos (show (m : ℝ) * Real.logb 10 0 < 50 by rw [Real.logb_zero]; norm_num),
    INVERSE_FACTORIALS_get_lt hm]
  simp [zero_pow (show m ≠ 0 by omega)]

lemma em_zero_ge {m : ℕ} (hm : 100 ≤ m) :
    e_m_x_x_over_factorial 0 m = none := by
  unfold e_m_x_x_over_factorial
  rw [if_neg (by rintro ⟨-, h2⟩; omega),
    if_pos (show (m : ℝ) * Real.logb 10 0 < 50 by rw [Real.logb_zero]; norm_num),
    INVERSE_FACTORIALS_get_ge hm]
  rfl

/-! Unfolding equations for GnLoop. -/

lemma GnLoop_nil (x : ℝ) (n : ℕ) (s : ℝ) : GnLoop x n s [] = some s := rfl

lemma GnLoop_cons_none {x : ℝ} {m : ℕ} (n : ℕ) (ms : List ℕ) (s : ℝ)
    (he : e_m_x_x_over_factorial x m = none) : GnLoop x n s (m :: ms) = none := by
  rw [GnLoop, he]

lemma GnLoop_cons_some {x : ℝ} {m : ℕ} {e : ℝ} (n : ℕ) (ms : List ℕ) (s : ℝ)
    (he : e_m_x_x_over_factorial x m = some e) :
    GnLoop x n s (m :: ms) =
      if x ≠ 0 ∧ 2 * x < (m : ℝ) ∧
          PRECISION < -Real.logb 10 |e * ((n : ℝ) - (m : ℝ)) / (s + e * ((n : ℝ) - (m : ℝ)))| then
        some (s + e * ((n : ℝ) - (m : ℝ)))
      else
        GnLoop x n (s + e * ((n : ℝ) - (m : ℝ))) ms := by
  rw [GnLoop, he]

/-! Helper lemmas about GnLoop and Gn. -/

lemma GnLoop_isSome (x : ℝ) (n : ℕ) :
    ∀ (l : List ℕ) (s : ℝ), (∀ m ∈ l, m < 100) → (GnLoop x n s l).isSome
  | [], s, _ => by simp [GnLoop_nil]
  | m :: ms, s, hl => by
    have hm : m < 100 := hl m (List.mem_cons_self m ms)
    obtain ⟨e, he⟩ := Option.isSome_iff_exists.mp (em_isSome x hm)
    rw [GnLoop_cons_some n ms s he]
    split
    · simp
    · exact GnLoop_isSome x n ms _ (fun m' hm' => hl m' (List.mem_cons_of_mem m hm'))

lemma Gn_isSome (x : ℝ) {n : ℕ} (hn : n ≤ 100) : (Gn x n).isSome :=
  GnLoop_isSome x n (List.range n) 0 (fun m hm => lt_of_lt_of_le (List.mem_range.mp hm) hn)

lemma GnLoop_zero_run (n : ℕ) :
    ∀ (b a : ℕ) (s : ℝ), 1 ≤ a → a + b ≤ 100 → GnLoop 0 n s (List.range' a b) = some s
  | 0, a, s, _, _ => by simp [GnLoop_nil]
  | b + 1, a, s, ha, hab => by
    rw [List.range'_succ, GnLoop_cons_some n _ s (em_zero_succ ha (by omega))]
    rw [if_neg (by simp)]
    have hz : s + 0 * ((n : ℝ) - (a : ℝ)) = s := by ring
    rw [hz]
    exact GnLoop_zero_run n b (a + 1) s (by omega) (by omega)

lemma Gn_zero {n : ℕ} (hn : n ≤ 100) : Gn 0 n = some (n : ℝ) := by
  cases n with
  | zero => simp [Gn, GnLoop_nil]
  | succ p =>
    rw [Gn, List.range_eq_range', List.range'_succ,
      GnLoop_cons_some (p + 1) _ 0 em_zero_zero]
    rw [if_neg (by simp)]
    have h1 : (0 : ℝ) + 1 * (((p + 1 : ℕ) : ℝ) - ((0 : ℕ) : ℝ)) = ((p + 1 : ℕ) : ℝ) := by
      push_cast
      ring
    rw [h1, show (0 : ℕ) + 1 = 1 from rfl,
      GnLoop_zero_run (p + 1) p 1 _ (le_refl 1) (by omega)]

lemma GnLoop_zero_none (n : ℕ) :
    ∀ (l : List ℕ) (s : ℝ), (∃ m ∈ l, 100 ≤ m) → GnLoop 0 n s l = none
  | [], _, hex => by simp at hex
  | m :: ms, s, hex => by
    by_cases hm : 100 ≤ m
    · exact GnLoop_cons_none n ms s (em_zero_ge hm)
    · have htail : ∃ m' ∈ ms, 100 ≤ m' := by
        obtain ⟨m', hm', h100⟩ := hex
        rcases List.mem_cons.mp hm' with hcase | hcase
        · omega
        · exact ⟨m', hcase, h100⟩
      rcases Nat.eq_zero_or_pos m with hm0 | hm1
      · subst hm0
        rw [GnLoop_cons_some n ms s em_zero_zero, if_neg (by simp)]
        exact GnLoop_zero_none n ms _ htail
      · rw [GnLoop_cons_some n ms s (em_zero_succ hm1 (by omega)), if_neg (by simp)]
        exact GnLoop_zero_none n ms _ htail

lemma Gn_zero_none {n : ℕ} (hn : 100 < n) : Gn 0 n = none :=
  GnLoop_zero_none n (List.range n) 0 ⟨100, List.mem_range.mpr hn, le_refl 100⟩

/-! Unfolding equations and helper lemmas for mapOpt. -/

lemma mapOpt_nil {α β : Type} (f : α → Option β) : mapOpt f [] = some [] := rfl

lemma mapOpt_cons_none {α β : Type} {f : α → Option β} {a : α} (l : List α)
    (ha : f a = none) : mapOpt f (a :: l) = none := by
  rw [mapOpt, ha]

lemma mapOpt_cons_some {α β : Type} {f : α → Option β} {a : α} {b : β} (l : List α)
    (ha : f a = some b) :
    mapOpt f (a :: l) = (mapOpt f l).map (fun bs => b :: bs) := by
  rw [mapOpt, ha]

lemma mapOpt_some_of_forall {α β : Type} (f : α → Option β) (g : α → β) :
    ∀ (l : List α), (∀ a ∈ l, f a = some (g a)) → mapOpt f l = some (l.map g)
  | [], _ => rfl
  | a :: l, hl => by
    rw [mapOpt_cons_some l (hl a (List.mem_cons_self a l)),
      mapOpt_some_of_forall f g l (fun a' ha' => hl a' (List.mem_cons_of_mem a ha'))]
    rfl

lemma mapOpt_isSome {α β : Type} (f : α → Option β) :
    ∀ (l : List α), (∀ a ∈ l, (f a).isSome) → (mapOpt f l).isSome
  | [], _ => by simp [mapOpt_nil]
  | a :: l, hl => by
    obtain ⟨b, hb⟩ := Option.isSome_iff_exists.mp (hl a (List.mem_cons_self a l))
    rw [mapOpt_cons_some l hb]
    obtain ⟨bs, hbs⟩ := Option.isSome_iff_exists.mp
      (mapOpt_isSome f l (fun a' ha' => hl a' (List.mem_cons_of_mem a ha')))
    rw [hbs]
    simp

lemma mapOpt_none_of_mem {α β : Type} (f : α → Option β) {a : α} :
    ∀ (l : List α), a ∈ l → f a = none → mapOpt f l = none
  | [], ha, _ => by simp at ha
  | a' :: l, ha, hfa => by
    rcases List.mem_cons.mp ha with hcase | hcase
    · exact mapOpt_cons_none l (hcase ▸ hfa)
    · match hfa' : f a' with
      | none => exact mapOpt_cons_none l hfa'
      | some b =>
        rw [mapOpt_cons_some l hfa', mapOpt_none_of_mem f l hcase hfa]
        rfl

lemma mapOpt_length {α β : Type} (f : α → Option β) :
    ∀ (l : List α) (l' : List β), mapOpt f l = some l' → l'.length = l.length
  | [], l', hl => by
    rw [mapOpt_nil] at hl
    cases hl
    rfl
  | a :: l, l', hl => by
    match hfa : f a with
    | none =>
      rw [mapOpt_cons_none l hfa] at hl
      cases hl
    | some b =>
      rw [mapOpt_cons_some l hfa] at hl
      match hrest : mapOpt f l with
      | none =>
        rw [hrest] at hl
        cases hl
      | some bs =>
        rw [hrest] at hl
        simp only [Option.map_some', Option.some.injEq] at hl
        rw [← hl]
        simp [mapOpt_length f l bs hrest]

lemma mapOpt_append {α β : Type} (f : α → Option β) :
    ∀ (l₁ l₂ : List α),
      mapOpt f (l₁ ++ l₂) =
        (mapOpt f l₁).bind (fun b₁ => (mapOpt f l₂).map (fun b₂ => b₁ ++ b₂))
  | [], l₂ => by
    rw [List.nil_append, mapOpt_nil]
    match mapOpt f l₂ with
    | none => rfl
    | some bs => simp
  | a :: l₁, l₂ => by
    rw [List.cons_append]
    match hfa : f a with
    | none => rw [mapOpt_cons_none _ hfa, mapOpt_cons_none _ hfa]; rfl
    | some b =>
      rw [mapOpt_cons_some _ hfa, mapOpt_cons_some _ hfa, mapOpt_append f l₁ l₂]
      match mapOpt f l₁ with
      | none => rfl
      | some bs =>
        match mapOpt f l₂ with
        | none => rfl
        | some bs' => rfl

/-! Helper lemmas about h. -/

lemma h_neg {k n : ℕ} {td tb tau : ℝ} (hlt : (k : ℝ) * tb - (n : ℝ) * td < 0) :
    h k n td tb tau = some 0 := by
  rw [h, if_pos hlt]

lemma h_isSome (k : ℕ) {n : ℕ} (td tb tau : ℝ) (hn : n ≤ 100) :
    (h k n td tb tau).isSome := by
  rw [h]
  split
  · simp
  · obtain ⟨g, hg⟩ := Option.isSome_iff_exists.mp (Gn_isSome _ hn)
    rw [hg]
    simp

/-! Helper lemmas about A_term. -/

lemma A_term_eval {k n : ℕ} {td tb tau : ℝ} {a b c : ℝ}
    (ha : h (k + 1) n td tb tau = some a) (hb : h k n td tb tau = some b)
    (hc : h (k - 1) n td tb tau = some c) :
    A_term k n td tb tau = some (a - 2 * b + c) := by
  rw [A_term, ha, hb, hc]

lemma A_term_isSome (k : ℕ) {n : ℕ} (td tb tau : ℝ) (hn : n ≤ 100) :
    (A_term k n td tb tau).isSome := by
  obtain ⟨a, ha⟩ := Option.isSome_iff_exists.mp (h_isSome (k + 1) td tb tau hn)
  obtain ⟨b, hb⟩ := Option.isSome_iff_exists.mp (h_isSome k td tb tau hn)
  obtain ⟨c, hc⟩ := Option.isSome_iff_exists.mp (h_isSome (k - 1) td tb tau hn)
  rw [A_term_eval ha hb hc]
  rfl

lemma A_term_none_left {k n : ℕ} {td tb tau : ℝ}
    (ha : h (k + 1) n td tb tau = none) : A_term k n td tb tau = none := by
  rw [A_term, ha]

/-! Range-extension: appending loop indices whose terms are exactly zero does
not change the accumulated sum. -/

lemma mapOpt_sum_extend (f : ℕ → Option ℝ) (c c' : ℕ) (hcc : c ≤ c')
    (hzero : ∀ n, c + 1 ≤ n → n ≤ c' → f n = some 0) :
    (mapOpt f (List.range' 1 c')).map (fun l => l.sum) =
      (mapOpt f (List.range' 1 c)).map (fun l => l.sum) := by
  have h0 := List.range'_append 1 c (c' - c) 1
  rw [one_mul] at h0
  rw [show c' - c + c = c' from by omega] at h0
  rw [← h0, mapOpt_append]
  rw [mapOpt_some_of_forall f (fun _ => (0 : ℝ)) (List.range' (1 + c) (c' - c))
    (fun n hn => by
      obtain ⟨hn1, hn2⟩ := List.mem_range'_1.mp hn
      exact hzero n (by omega) (by omega))]
  rcases mapOpt f (List.range' 1 c) with _ | bs
  · rfl
  · simp [List.sum_append, List.map_const, List.sum_replicate]

/-- If c < y then c < 3 * floor (max 1 y): the key bound showing the claim's
inclusive loop bound only adds indices beyond the support of h. -/
lemma three_floor_gt {c y : ℝ} (hcy : c < y) :
    c < 3 * (Nat.floor (max 1 y) : ℝ) := by
  rcases le_or_lt 2 y with hy | hy
  · have hmax : max (1 : ℝ) y = y := max_eq_right (by linarith)
    have hfl : y - 1 < (Nat.floor y : ℝ) := by
      have := Nat.lt_floor_add_one y
      linarith
    rw [hmax]
    linarith
  · have h1 : (1 : ℕ) ≤ Nat.floor (max (1 : ℝ) y) := Nat.le_floor (by simp)
    have h1' : (1 : ℝ) ≤ (Nat.floor (max (1 : ℝ) y) : ℝ) := by exact_mod_cast h1
    linarith

/-- C2: the inverse-factorial table bound is not enforced.  With x = 0 the
direct-formula branch is taken for every m (as log10(0) = -inf in the source),
so e_m_x_x_over_factorial(0, 100) reads __INVERSE_FACTORIALS[100], one entry
past the end of the table, and Gn(0, 101) reaches that read (the early-exit
rule requires x != 0 and never fires).  The model returns none, marking the
unchecked out-of-bounds access: no error is raised by the code and the table
is not extended. -/
theorem C2_table_overrun :
    e_m_x_x_over_factorial 0 100 = none ∧ Gn 0 101 = none :=
  ⟨em_zero_ge (le_refl 100), Gn_zero_none (by norm_num)⟩

/-- C3: for k >= 1 and positive td, tb, A_single_k equals the spec formula
r0 * tb * sum over n = 1 .. N_k inclusive of
h(k+1,n,...) - 2 h(k,n,...) + h(k-1,n,...), with
N_k = 3 * max(1, (k+2) tb/td) rounded down: the indices the code's exclusive
loop bound omits all lie beyond the support of h and contribute exactly 0. -/
theorem C3_A_matches_spec (k : ℕ) (r0 td tb tau : ℝ) (hk : 1 ≤ k)
    (htd : 0 < td) (htb : 0 < tb) :
    A_single_k k r0 td tb tau = A_spec k r0 td tb tau := by
  have hq : 0 < tb / td := div_pos htb htd
  have hcy : ((k : ℝ) + 1) * (tb / td) < ((k : ℝ) + 2) * tb / td := by
    rw [mul_div_assoc]
    apply mul_lt_mul_of_pos_right _ hq
    linarith
  have hkey : ((k : ℝ) + 1) * (tb / td) <
      3 * (Nat.floor (max 1 (((k : ℝ) + 2) * tb / td)) : ℝ) := three_floor_gt hcy
  have hM1 : 1 ≤ Nat.floor (max (1 : ℝ) (((k : ℝ) + 2) * tb / td)) :=
    Nat.le_floor (by simp)
  have hc3M : Nat.floor (max (1 : ℝ) (((k : ℝ) + 2) * tb / td)) * 3 ≤
      Nat.floor (3 * max (1 : ℝ) (((k : ℝ) + 2) * tb / td)) := by
    apply Nat.le_floor
    have hfl : (Nat.floor (max (1 : ℝ) (((k : ℝ) + 2) * tb / td)) : ℝ) ≤
        max (1 : ℝ) (((k : ℝ) + 2) * tb / td) :=
      Nat.floor_le (le_trans zero_le_one (le_max_left _ _))
    push_cast
    linarith
  have hzero : ∀ n, Nat.floor (max (1 : ℝ) (((k : ℝ) + 2) * tb / td)) * 3 - 1 + 1 ≤ n →
      n ≤ Nat.floor (3 * max (1 : ℝ) (((k : ℝ) + 2) * tb / td)) →
      A_term k n td tb tau = some 0 := by
    intro n hn1 _
    have hn3M : Nat.floor (max (1 : ℝ) (((k : ℝ) + 2) * tb / td)) * 3 ≤ n := by omega
    have hnR : 3 * (Nat.floor (max (1 : ℝ) (((k : ℝ) + 2) * tb / td)) : ℝ) ≤ (n : ℝ) := by
      have hcast : ((Nat.floor (max (1 : ℝ) (((k : ℝ) + 2) * tb / td)) * 3 : ℕ) : ℝ) ≤
          ((n : ℕ) : ℝ) := Nat.cast_le.mpr hn3M
      push_cast at hcast
      linarith
    have hdivlt : ((k : ℝ) + 1) * (tb / td) < (n : ℝ) := lt_of_lt_of_le hkey hnR
    have hmain : ((k : ℝ) + 1) * tb < (n : ℝ) * td := by
      have := (div_lt_iff htd).mp (by rw [← mul_div_assoc] at hdivlt; exact hdivlt)
      linarith
    have h1 : h (k + 1) n td tb tau = some 0 := h_neg (by push_cast; linarith)
    have h2 : h k n td tb tau = some 0 := h_neg (by
      have : (k : ℝ) * tb < ((k : ℝ) + 1) * tb := by nlinarith
      push_cast
      linarith)
    have h3 : h (k - 1) n td tb tau = some 0 := h_neg (by
      have hcast : ((k - 1 : ℕ) : ℝ) ≤ (k : ℝ) := by
        exact_mod_cast Nat.sub_le k 1
      have : ((k - 1 : ℕ) : ℝ) * tb ≤ (k : ℝ) * tb :=
        mul_le_mul_of_nonneg_right hcast htb.le
      have hk1 : (k : ℝ) * tb < ((k : ℝ) + 1) * tb := by nlinarith
      linarith)
    rw [A_term_eval h1 h2 h3]
    norm_num
  have hmap : ∀ (o : Option (List ℝ)),
      o.map (fun l => r0 * tb * l.sum) =
        (o.map (fun l => l.sum)).map (fun s => r0 * tb * s) := by
    intro o
    cases o <;> rfl
  unfold A_single_k A_spec
  rw [if_neg (by omega : ¬ k = 0), hmap, hmap,
    mapOpt_sum_extend (fun n => A_term k n td tb tau)
      (Nat.floor (max (1 : ℝ) (((k : ℝ) + 2) * tb / td)) * 3 - 1)
      (Nat.floor (3 * max (1 : ℝ) (((k : ℝ) + 2) * tb / td)))
      (by omega) hzero]

/-- C3 witness: the theorem applied at k = 1, r0 = td = tb = tau = 1. -/
theorem C3_witness :
    1 ≤ 1 ∧ 0 < (1 : ℝ) ∧ A_single_k 1 1 1 1 1 = A_spec 1 1 1 1 1 :=
  ⟨le_refl 1, one_pos, C3_A_matches_spec 1 1 1 1 1 (le_refl 1) one_pos one_pos⟩

/-- C4: for positive td, tb, A0 equals the spec formula
r0 * tb * (1 + 2 * sum over n = 1 .. N0 inclusive of h(1,n,...)), with
N0 = max(1, tb/td + 1) rounded down: the index N0 the code's exclusive loop
bound omits lies beyond the support of h and contributes exactly 0. -/
theorem C4_A0_matches_spec (r0 td tb tau : ℝ) (htd : 0 < td) (htb : 0 < tb) :
    A0 r0 td tb tau = A0_spec r0 td tb tau := by
  have hq : 0 < tb / td := div_pos htb htd
  have hmax : max (1 : ℝ) (tb / td + 1) = tb / td + 1 := max_eq_right (by linarith)
  have hN1 : 1 ≤ Nat.floor (max (1 : ℝ) (tb / td + 1)) := Nat.le_floor (by simp)
  have hlt : tb / td < (Nat.floor (max (1 : ℝ) (tb / td + 1)) : ℝ) := by
    rw [hmax, Nat.floor_add_one hq.le]
    push_cast
    exact Nat.lt_floor_add_one _
  have hzero : ∀ n, Nat.floor (max (1 : ℝ) (tb / td + 1)) - 1 + 1 ≤ n →
      n ≤ Nat.floor (max (1 : ℝ) (tb / td + 1)) →
      h 1 n td tb tau = some 0 := by
    intro n hn1 _
    have hfn : Nat.floor (max (1 : ℝ) (tb / td + 1)) ≤ n := by omega
    have hnR : (Nat.floor (max (1 : ℝ) (tb / td + 1)) : ℝ) ≤ (n : ℝ) := by
      exact_mod_cast hfn
    apply h_neg
    have htbn : tb < (n : ℝ) * td := by
      have h2 : tb / td < (n : ℝ) := lt_of_lt_of_le hlt hnR
      have := (div_lt_iff htd).mp h2
      linarith
    push_cast
    linarith
  have hmap : ∀ (o : Option (List ℝ)),
      o.map (fun l => r0 * tb * (1 + 2 * l.sum)) =
        (o.map (fun l => l.sum)).map (fun s => r0 * tb * (1 + 2 * s)) := by
    intro o
    cases o <;> rfl
  unfold A0 A0_spec
  rw [hmap, hmap,
    mapOpt_sum_extend (fun n => h 1 n td tb tau)
      (Nat.floor (max (1 : ℝ) (tb / td + 1)) - 1)
      (Nat.floor (max (1 : ℝ) (tb / td + 1)))
      (by omega) hzero]

/-- C4 witness: the theorem applied at r0 = td = tb = tau = 1. -/
theorem C4_witness :
    0 < (1 : ℝ) ∧ A0 1 1 1 1 = A0_spec 1 1 1 1 :=
  ⟨one_pos, C4_A0_matches_spec 1 1 1 1 one_pos one_pos⟩

/-- C5: safe_B_single_k returns exactly 0 when k > limit_k and otherwise
returns B_raw(k) = c_k * (A(k) - r0^2 tb^2) / (r0 tb), with c_0 = 2 and
c_k = 4 for k >= 1 (stated for all k, limit_k and all real parameters). -/
theorem C5_safe_B_cutoff (k limit_k : ℕ) (r0 td tb tau : ℝ) :
    safe_B_single_k k r0 td tb tau limit_k =
      if limit_k < k then some 0
      else (A_single_k k r0 td tb tau).map
        (fun a => (if k = 0 then 2 else 4) * (a - r0 ^ 2 * tb ^ 2) / (r0 * tb)) := by
  rw [safe_B_single_k]
  by_cases hk : limit_k < k
  · rw [if_pos hk, if_pos hk]
  · rw [if_neg hk, if_neg hk, B_raw]
    by_cases hk0 : k = 0
    · subst hk0
      simp
    · rw [if_neg hk0]
      simp [hk0]

/-- C8: e_m_x_x_over_factorial(0, 0) = 1 exactly, and for every real x,
e_m_x_x_over_factorial(x, 0) = exp(-x) (the m = 0 case always takes the
in-bounds direct formula exp(-x) * x^0 * (1/0!)). -/
theorem C8_asymptotic_ratio_m0 :
    e_m_x_x_over_factorial 0 0 = some 1 ∧
      ∀ x : ℝ, e_m_x_x_over_factorial x 0 = some (Real.exp (-x)) := by
  refine ⟨em_zero_zero, fun x => ?_⟩
  by_cases hx : x = 0
  · subst hx
    rw [em_zero_zero, neg_zero, Real.exp_zero]
  · unfold e_m_x_x_over_factorial
    rw [if_neg (by rintro ⟨h0, -⟩; exact hx h0),
      if_pos (by push_cast; norm_num :
        (((0 : ℕ) : ℝ)) * Real.logb 10 x < 50),
      INVERSE_FACTORIALS_get_lt (by norm_num)]
    simp [Nat.factorial]

/-- C9: round-trip of the rate conversions: for rate > 0 and
0 < dead_time < 1/rate, r_in(dead_time, r_det(dead_time, rate)) = rate,
exactly in real arithmetic. -/
theorem C9_rate_round_trip (rate td : ℝ) (hrate : 0 < rate) (htd : 0 < td)
    (htd2 : td < 1 / rate) : r_in td (r_det td rate) = rate := by
  rw [r_in, r_det]
  rw [show (1.0 : ℝ) = 1 by norm_num, one_div_one_div, add_sub_cancel_right,
    one_div_one_div]

/-- C9 witness: the theorem applied at rate = 2, dead_time = 1/4. -/
theorem C9_witness :
    0 < (2 : ℝ) ∧ 0 < (1 / 4 : ℝ) ∧ (1 / 4 : ℝ) < 1 / 2 ∧
      r_in (1 / 4) (r_det (1 / 4) 2) = 2 :=
  ⟨two_pos, by norm_num, by norm_num,
    C9_rate_round_trip 2 (1 / 4) two_pos (by norm_num) (by norm_num)⟩

/-- C10: for 0 <= n < MAX_M, Gn(0, n) = n exactly (the m = 0 term contributes
1 * n, every m >= 1 term contributes 0, the early exit never fires at x = 0),
and consequently h at a support boundary (k tb = n td) reduces to
k - n * td / tb. -/
theorem C10_Gn_at_zero (n : ℕ) (hn : n < 100) :
    Gn 0 n = some (n : ℝ) ∧
      ∀ (k : ℕ) (td tb tau : ℝ), (k : ℝ) * tb - (n : ℝ) * td = 0 → tb ≠ 0 →
        h k n td tb tau = some ((k : ℝ) - (n : ℝ) * td / tb) := by
  refine ⟨Gn_zero hn.le, fun k td tb tau hfac htb => ?_⟩
  rw [h, if_neg (by rw [hfac]; exact lt_irrefl 0), hfac, zero_div, Gn_zero hn.le]
  simp only [Option.map_some', Option.some.injEq]
  field_simp
  ring

/-- C10 witness: the theorem applied at n = 5, and its h consequence at
k = 5, td = tb = tau = 1 (support boundary 5 * 1 - 5 * 1 = 0). -/
theorem C10_witness :
    (5 : ℕ) < 100 ∧ Gn 0 5 = some ((5 : ℕ) : ℝ) ∧
      h 5 5 1 1 1 = some (((5 : ℕ) : ℝ) - ((5 : ℕ) : ℝ) * 1 / 1) :=
  ⟨by norm_num, (C10_Gn_at_zero 5 (by norm_num)).1,
    (C10_Gn_at_zero 5 (by norm_num)).2 5 1 1 1 (by norm_num) one_ne_zero⟩

/-! Bridging list sums over range' with Finset.Ico sums. -/

lemma sum_range'_eq_Ico (g : ℕ → ℝ) (c : ℕ) :
    ((List.range' 1 c).map g).sum = ∑ i in Finset.Ico 1 (1 + c), g i := by
  rw [Finset.sum_Ico_eq_sum_range, show 1 + c - 1 = c from by omega,
    List.range'_eq_map_range, List.map_map]
  rfl

/-! Unfolding equation for pds_P_j. -/

lemma pds_P_j_eval {N : ℕ} {tau r0 td tb : ℝ} {limit_k j : ℕ} {terms : List ℝ} {b0 : ℝ}
    (hterms : mapOpt (fun k => (safe_B_single_k k r0 td tb tau limit_k).map
        (fun b => ((N : ℝ) - (k : ℝ)) / (N : ℝ) * b *
          Real.cos (2 * Real.pi * (j : ℝ) * (k : ℝ) / (N : ℝ))))
      (List.range' 1 (min N limit_k - 1)) = some terms)
    (hb0 : safe_B_single_k 0 r0 td tb tau 60 = some b0) :
    pds_P_j N tau r0 td tb limit_k j = some (b0 + terms.sum) := by
  rw [pds_P_j, hterms, hb0]

/-- C6: whenever the safe_B values at the derived r0 = r_det(td, rate) and
tau = 1/rate are defined (safe_B(k) = Bf k for 1 <= k < min(N, limit_k), and
safe_B(0) at the default limit 60 equals b0), the spectrum synthesis returns,
for each frequency bin j in [0, N/2), exactly
P[j] = b0 + sum over k = 1 .. min(N, limit_k) - 1 of
(N-k)/N * Bf k * cos(2 pi j k / N). -/
theorem C6_spectrum_synthesis (N : ℕ) (rate td tb : ℝ) (limit_k : ℕ)
    (Bf : ℕ → ℝ) (b0 : ℝ)
    (hB : ∀ k, 1 ≤ k → k < min N limit_k →
      safe_B_single_k k (r_det td rate) td tb (1 / rate) limit_k = some (Bf k))
    (hB0 : safe_B_single_k 0 (r_det td rate) td tb (1 / rate) 60 = some b0) :
    inner_loop_pds_zhang N (1 / rate) (r_det td rate) td tb limit_k =
      some ((List.range (N / 2)).map (fun (j : ℕ) =>
        b0 + ∑ k in Finset.Ico 1 (min N limit_k),
          ((N : ℝ) - (k : ℝ)) / (N : ℝ) * Bf k *
            Real.cos (2 * Real.pi * (j : ℝ) * (k : ℝ) / (N : ℝ)))) := by
  rw [inner_loop_pds_zhang]
  apply mapOpt_some_of_forall
  intro j _
  have hterms := mapOpt_some_of_forall
    (fun k => (safe_B_single_k k (r_det td rate) td tb (1 / rate) limit_k).map
      (fun b => ((N : ℝ) - (k : ℝ)) / (N : ℝ) * b *
        Real.cos (2 * Real.pi * (j : ℝ) * (k : ℝ) / (N : ℝ))))
    (fun k => ((N : ℝ) - (k : ℝ)) / (N : ℝ) * Bf k *
      Real.cos (2 * Real.pi * (j : ℝ) * (k : ℝ) / (N : ℝ)))
    (List.range' 1 (min N limit_k - 1))
    (fun k hk => by
      obtain ⟨hk1, hk2⟩ := List.mem_range'_1.mp hk
      dsimp only
      rw [hB k hk1 (by omega)]
      rfl)
  rw [pds_P_j_eval hterms hB0]
  congr 2

/-! Concrete evaluation at rate = 1, td = tb = 1: used by witnesses. -/

lemma h_one_eval : h 1 1 1 1 (1 / 1) = some 0 := by
  rw [h, if_neg (by norm_num)]
  rw [show ((((1 : ℕ) : ℝ)) * 1 - (((1 : ℕ) : ℝ)) * 1) / (1 / 1) = 0 by norm_num]
  rw [Gn_zero (by norm_num : (1 : ℕ) ≤ 100)]
  simp only [Option.map_some', Option.some.injEq]
  norm_num

lemma A0_one_eval : A0 (r_det 1 1) 1 1 (1 / 1) = some (1 / 2) := by
  have hr : r_det 1 1 = 1 / 2 := by
    rw [r_det]
    norm_num
  have hN0 : Nat.floor (max (1 : ℝ) ((1 : ℝ) / 1 + 1)) = 2 := by
    rw [show max (1 : ℝ) ((1 : ℝ) / 1 + 1) = 2 by norm_num]
    exact Nat.floor_ofNat 2
  rw [A0, hN0, hr]
  rw [show (2 : ℕ) - 1 = 1 from rfl, show List.range' 1 1 = [1] from rfl]
  rw [@mapOpt_cons_some ℕ ℝ (fun n => h 1 n 1 1 (1 / 1)) 1 0 [] h_one_eval, mapOpt_nil]
  simp only [Option.map_some', Option.some.injEq]
  norm_num

lemma safe_B0_one_eval : safe_B_single_k 0 (r_det 1 1) 1 1 (1 / 1) 60 = some 1 := by
  rw [safe_B_single_k, if_neg (by omega), B_raw, if_pos rfl, A_single_k, if_pos rfl,
    A0_one_eval]
  simp only [Option.map_some', Option.some.injEq]
  rw [show r_det 1 1 = 1 / 2 by rw [r_det]; norm_num]
  norm_num

/-- C6 witness: the theorem applied at N = 2, rate = td = tb = 1, limit_k = 0,
with Bf = 0 (the k-loop is empty) and b0 = 1. -/
theorem C6_witness :
    safe_B_single_k 0 (r_det 1 1) 1 1 (1 / 1) 60 = some 1 ∧
      inner_loop_pds_zhang 2 (1 / 1) (r_det 1 1) 1 1 0 =
        some ((List.range (2 / 2)).map (fun (j : ℕ) =>
          1 + ∑ k in Finset.Ico (1 : ℕ) (min 2 0),
            (((2 : ℕ) : ℝ) - (k : ℝ)) / ((2 : ℕ) : ℝ) * 0 *
              Real.cos (2 * Real.pi * (j : ℝ) * (k : ℝ) / ((2 : ℕ) : ℝ)))) :=
  ⟨safe_B0_one_eval,
    C6_spectrum_synthesis 2 1 1 1 0 (fun _ => 0) 1
      (fun k hk1 hk2 => absurd hk2 (by omega)) safe_B0_one_eval⟩

/-! isSome propagation: every computation succeeds as long as the loop bounds
keep the Gn series index at or below 100. -/

lemma A_single_k_isSome (k : ℕ) (r0 td tb tau : ℝ)
    (h0 : k = 0 → Nat.floor (max (1 : ℝ) (tb / td + 1)) ≤ 101)
    (h1 : k ≠ 0 → Nat.floor (max (1 : ℝ) (((k : ℝ) + 2) * tb / td)) * 3 ≤ 101) :
    (A_single_k k r0 td tb tau).isSome := by
  rw [A_single_k]
  by_cases hk : k = 0
  · rw [if_pos hk, A0, Option.isSome_map']
    apply mapOpt_isSome
    intro n hn
    obtain ⟨hn1, hn2⟩ := List.mem_range'_1.mp hn
    exact h_isSome 1 td tb tau (by have := h0 hk; omega)
  · rw [if_neg hk, Option.isSome_map']
    apply mapOpt_isSome
    intro n hn
    obtain ⟨hn1, hn2⟩ := List.mem_range'_1.mp hn
    exact A_term_isSome k td tb tau (by have := h1 hk; omega)

lemma B_raw_isSome (k : ℕ) (r0 td tb tau : ℝ)
    (h0 : k = 0 → Nat.floor (max (1 : ℝ) (tb / td + 1)) ≤ 101)
    (h1 : k ≠ 0 → Nat.floor (max (1 : ℝ) (((k : ℝ) + 2) * tb / td)) * 3 ≤ 101) :
    (B_raw k r0 td tb tau).isSome := by
  rw [B_raw]
  by_cases hk : k = 0
  · subst hk
    rw [if_pos rfl, Option.isSome_map']
    exact A_single_k_isSome 0 r0 td tb tau h0 h1
  · rw [if_neg hk, Option.isSome_map']
    exact A_single_k_isSome k r0 td tb tau h0 h1

lemma safe_B_isSome (k : ℕ) (r0 td tb tau : ℝ) (limit_k : ℕ)
    (h0 : k = 0 → Nat.floor (max (1 : ℝ) (tb / td + 1)) ≤ 101)
    (h1 : k ≠ 0 → Nat.floor (max (1 : ℝ) (((k : ℝ) + 2) * tb / td)) * 3 ≤ 101) :
    (safe_B_single_k k r0 td tb tau limit_k).isSome := by
  rw [safe_B_single_k]
  split
  · simp
  · exact B_raw_isSome k r0 td tb tau h0 h1

lemma inner_loop_isSome (N : ℕ) (tau r0 td tb : ℝ) (limit_k : ℕ)
    (hB : ∀ k, 1 ≤ k → k < min N limit_k →
      (safe_B_single_k k r0 td tb tau limit_k).isSome)
    (hB0 : (safe_B_single_k 0 r0 td tb tau 60).isSome) :
    (inner_loop_pds_zhang N tau r0 td tb limit_k).isSome := by
  rw [inner_loop_pds_zhang]
  apply mapOpt_isSome
  intro j _
  obtain ⟨terms, hterms⟩ := Option.isSome_iff_exists.mp (mapOpt_isSome
    (fun k => (safe_B_single_k k r0 td tb tau limit_k).map
      (fun b => ((N : ℝ) - (k : ℝ)) / (N : ℝ) * b *
        Real.cos (2 * Real.pi * (j : ℝ) * (k : ℝ) / (N : ℝ))))
    (List.range' 1 (min N limit_k - 1))
    (fun k hk => by
      obtain ⟨hk1, hk2⟩ := List.mem_range'_1.mp hk
      dsimp only
      rw [Option.isSome_map']
      exact hB k hk1 (by omega)))
  obtain ⟨b0, hb0⟩ := Option.isSome_iff_exists.mp hB0
  rw [pds_P_j_eval hterms hb0]
  rfl

lemma pds_model_zhang_eval {N : ℕ} {rate td tb : ℝ} {limit_k : ℕ} {P : List ℝ}
    (hP : inner_loop_pds_zhang N (1 / rate) (r_det td rate) td tb limit_k = some P) :
    pds_model_zhang N rate td tb limit_k =
      if P.length = 0 then none
      else some (arange (0.5 / tb) ((0.5 / tb) / (P.length : ℝ)), P) := by
  rw [pds_model_zhang, hP]

lemma pds_isSome {N : ℕ} {rate td tb : ℝ} {limit_k : ℕ} (hN : 2 ≤ N)
    (hinner : (inner_loop_pds_zhang N (1 / rate) (r_det td rate) td tb limit_k).isSome) :
    (pds_model_zhang N rate td tb limit_k).isSome := by
  obtain ⟨P, hP⟩ := Option.isSome_iff_exists.mp hinner
  have hlen : P.length = N / 2 := by
    rw [inner_loop_pds_zhang] at hP
    rw [mapOpt_length _ _ _ hP, List.length_range]
  rw [pds_model_zhang_eval hP, if_neg (by omega)]
  rfl

/-- C1: pds_model_zhang performs no precondition validation.  At the invalid
input N = 100, rate = 10, dead_time = 1/5, bin_time = 1/100 (dead_time is
twice 1/rate, violating dead_time < 1/incident_rate) the call does not fail
with a domain error: it runs to completion and returns a result. -/
theorem C1_precondition_not_enforced :
    (pds_model_zhang 100 10 (1 / 5) (1 / 100) 60).isSome := by
  apply pds_isSome (by norm_num)
  apply inner_loop_isSome
  · intro k hk1 hk2
    apply safe_B_isSome
    · intro hk0
      exact absurd hk0 (by omega)
    · intro _
      have hk59 : (k : ℝ) ≤ 59 := by
        have hk' : k ≤ 59 := by omega
        exact_mod_cast hk'
      have harg : ((k : ℝ) + 2) * (1 / 100) / (1 / 5) < 34 := by
        have hrw : ((k : ℝ) + 2) * (1 / 100) / (1 / 5) = ((k : ℝ) + 2) / 20 := by
          ring
        rw [hrw]
        linarith
      have hfl : Nat.floor (max (1 : ℝ) (((k : ℝ) + 2) * (1 / 100) / (1 / 5))) < 34 := by
        rw [Nat.floor_lt (le_trans zero_le_one (le_max_left _ _))]
        push_cast
        exact max_lt (by norm_num) harg
      omega
  · apply safe_B_isSome
    · intro _
      have harg : (1 : ℝ) / 100 / (1 / 5) + 1 < 102 := by norm_num
      have hfl : Nat.floor (max (1 : ℝ) ((1 : ℝ) / 100 / (1 / 5) + 1)) < 102 := by
        rw [Nat.floor_lt (le_trans zero_le_one (le_max_left _ _))]
        push_cast
        exact max_lt (by norm_num) harg
      omega
    · intro hc
      exact absurd rfl hc

lemma pds_model_zhang_none {N : ℕ} {rate td tb : ℝ} {limit_k : ℕ}
    (hP : inner_loop_pds_zhang N (1 / rate) (r_det td rate) td tb limit_k = none) :
    pds_model_zhang N rate td tb limit_k = none := by
  rw [pds_model_zhang, hP]

/-- C7 (amended): whenever pds_model_zhang does return a pair (freqs, P), with
bin_time > 0, the two lists have equal length N/2, freqs is the arithmetic
progression i * df with df = maxf / (N/2) and maxf = 0.5 / bin_time (so its
first entry is 0, it is strictly increasing with constant step df, and every
entry is strictly below maxf).  The original claim additionally asserted that
every valid input returns a result, and that the instance N = 1024,
rate = 100, dead_time = 1e-4, bin_time = 1e-2 returns length-512 arrays of
finite powers; the counterexample refutes both (N = 1 divides by zero
building df, and the instance aborts on the claim C2 table overrun in exact
arithmetic), so the statement is conditional on a returned result. -/
theorem C7_output_structure (N : ℕ) (rate td tb : ℝ) (limit_k : ℕ)
    (freqs P : List ℝ) (htb : 0 < tb)
    (hres : pds_model_zhang N rate td tb limit_k = some (freqs, P)) :
    P.length = N / 2 ∧ freqs.length = N / 2 ∧
      freqs = (List.range (N / 2)).map
        (fun (i : ℕ) => (i : ℝ) * ((0.5 / tb) / ((N / 2 : ℕ) : ℝ))) ∧
      freqs.getD 0 0 = 0 ∧ List.Chain' (fun a b => a < b) freqs ∧
      ∀ x ∈ freqs, x < 0.5 / tb := by
  rcases hinner : inner_loop_pds_zhang N (1 / rate) (r_det td rate) td tb limit_k
    with _ | P'
  · rw [pds_model_zhang_none hinner] at hres
    exact absurd hres (by simp)
  · rw [pds_model_zhang_eval hinner] at hres
    have hlen' : P'.length = N / 2 := by
      rw [inner_loop_pds_zhang] at hinner
      rw [mapOpt_length _ _ _ hinner, List.length_range]
    by_cases hlen0 : P'.length = 0
    · rw [if_pos hlen0] at hres
      exact absurd hres (by simp)
    · rw [if_neg hlen0] at hres
      have hpair := Option.some.inj hres
      have hfr : freqs = arange (0.5 / tb) ((0.5 / tb) / (P'.length : ℝ)) :=
        (congrArg Prod.fst hpair).symm
      have hPP : P = P' := (congrArg Prod.snd hpair).symm
      subst hPP
      have hn2 : 1 ≤ N / 2 := by omega
      have hmaxf : 0 < 0.5 / tb := by positivity
      have hcast : (0 : ℝ) < ((N / 2 : ℕ) : ℝ) := by exact_mod_cast hn2
      have hstep : 0 < (0.5 / tb) / ((N / 2 : ℕ) : ℝ) := div_pos hmaxf hcast
      have hceil : Nat.ceil ((0.5 / tb) / ((0.5 / tb) / ((N / 2 : ℕ) : ℝ))) = N / 2 := by
        rw [show (0.5 / tb) / ((0.5 / tb) / ((N / 2 : ℕ) : ℝ)) = ((N / 2 : ℕ) : ℝ) from by
          field_simp
          ring]
        exact Nat.ceil_natCast _
      have hfr2 : freqs = (List.range (N / 2)).map
          (fun (i : ℕ) => (i : ℝ) * ((0.5 / tb) / ((N / 2 : ℕ) : ℝ))) := by
        rw [hfr, hlen', arange, hceil]
      refine ⟨hlen', ?_, hfr2, ?_, ?_, ?_⟩
      · rw [hfr2, List.length_map, List.length_range]
      · obtain ⟨m, hm⟩ : ∃ m, N / 2 = m + 1 := ⟨N / 2 - 1, by omega⟩
        rw [hfr2, hm, List.range_eq_range', List.range'_succ]
        simp
      · rw [hfr2, List.chain'_map]
        obtain ⟨m, hm⟩ : ∃ m, N / 2 = m + 1 := ⟨N / 2 - 1, by omega⟩
        rw [hm] at hstep
        rw [hm, show m + 1 = Nat.succ m from rfl, List.chain'_range_succ]
        intro i _
        have hii : (i : ℝ) < ((Nat.succ i : ℕ) : ℝ) := by
          push_cast
          linarith
        exact mul_lt_mul_of_pos_right hii hstep
      · intro x hx
        rw [hfr2] at hx
        obtain ⟨i, hi, hix⟩ := List.mem_map.mp hx
        have hiN : i < N / 2 := List.mem_range.mp hi
        have hiR : (i : ℝ) < ((N / 2 : ℕ) : ℝ) := by exact_mod_cast hiN
        rw [← hix]
        calc (i : ℝ) * ((0.5 / tb) / ((N / 2 : ℕ) : ℝ))
            < ((N / 2 : ℕ) : ℝ) * ((0.5 / tb) / ((N / 2 : ℕ) : ℝ)) :=
              mul_lt_mul_of_pos_right hiR hstep
          _ = 0.5 / tb := by
              field_simp
              ring

lemma pds_P_j_none_left {N : ℕ} {tau r0 td tb : ℝ} {limit_k j : ℕ}
    (hterms : mapOpt (fun k => (safe_B_single_k k r0 td tb tau limit_k).map
        (fun b => ((N : ℝ) - (k : ℝ)) / (N : ℝ) * b *
          Real.cos (2 * Real.pi * (j : ℝ) * (k : ℝ) / (N : ℝ))))
      (List.range' 1 (min N limit_k - 1)) = none) :
    pds_P_j N tau r0 td tb limit_k j = none := by
  rw [pds_P_j, hterms]

/-! Exact-arithmetic trace of the claim C7 instance
(N = 1024, rate = 100, td = 1/10000, tb = 1/100): at k = 1, n = 200 the
support factor 2 * (1/100) - 200 * (1/10000) is exactly 0, so h calls
Gn(0, 200), which overruns the inverse-factorial table (claim C2); the
failure propagates through A, B and the inner loop. -/

lemma h_boundary_none : h 2 200 (1 / 10000) (1 / 100) (1 / 100) = none := by
  rw [h, if_neg (by norm_num),
    show ((((2 : ℕ) : ℝ)) * (1 / 100) - (((200 : ℕ) : ℝ)) * (1 / 10000)) / (1 / 100)
      = (0 : ℝ) from by norm_num,
    Gn_zero_none (by norm_num : 100 < 200)]
  rfl

lemma A_single_one_none :
    A_single_k 1 (r_det (1 / 10000) 100) (1 / 10000) (1 / 100) (1 / 100) = none := by
  have hfloor : Nat.floor (max (1 : ℝ) ((((1 : ℕ) : ℝ) + 2) * (1 / 100) / (1 / 10000)))
      = 300 := by
    rw [show (((1 : ℕ) : ℝ) + 2) * (1 / 100) / (1 / 10000) = (300 : ℝ) from by norm_num,
      max_eq_right (by norm_num : (1 : ℝ) ≤ 300)]
    exact Nat.floor_ofNat 300
  have hterm : A_term 1 200 (1 / 10000) (1 / 100) (1 / 100) = none :=
    @A_term_none_left 1 200 (1 / 10000) (1 / 100) (1 / 100) h_boundary_none
  rw [A_single_k, if_neg one_ne_zero, hfloor,
    mapOpt_none_of_mem (fun n => A_term 1 n (1 / 10000) (1 / 100) (1 / 100))
      (List.range' 1 (300 * 3 - 1))
      (List.mem_range'_1.mpr ⟨by norm_num, by norm_num⟩) hterm]
  rfl

lemma safe_B_one_none :
    safe_B_single_k 1 (r_det (1 / 10000) 100) (1 / 10000) (1 / 100) (1 / 100) 60
      = none := by
  rw [safe_B_single_k, if_neg (by omega), B_raw, if_neg one_ne_zero, A_single_one_none]
  rfl

lemma pds_P_j_instance_none :
    pds_P_j 1024 (1 / 100) (r_det (1 / 10000) 100) (1 / 10000) (1 / 100) 60 0
      = none := by
  apply pds_P_j_none_left
  apply mapOpt_none_of_mem _ _ (List.mem_range'_1.mpr ⟨le_refl 1, by omega⟩)
  dsimp only
  rw [safe_B_one_none]
  rfl

lemma inner_loop_instance_none :
    inner_loop_pds_zhang 1024 (1 / 100) (r_det (1 / 10000) 100) (1 / 10000) (1 / 100) 60
      = none := by
  rw [inner_loop_pds_zhang]
  exact mapOpt_none_of_mem _ _ (List.mem_range.mpr (by norm_num))
    pds_P_j_instance_none

/-- C7 counterexample: the claim fails at two valid inputs.  First, at
N = 1, rate = 100, dead_time = 1/10000, bin_time = 1/100 (all preconditions
hold) the function returns no sequences at all: P = zeros(1 // 2) is empty
and df = maxf / len(P) divides by zero (Python ZeroDivisionError, modelled
as none).  Second, the claim's own instance N = 1024, rate = 100,
dead_time = 1e-4, bin_time = 1e-2 does not return length-512 arrays either:
in exact arithmetic the run aborts on the inverse-factorial table overrun of
claim C2 (at k = 1, n = 200 the support factor 2*0.01 - 200*0.0001 is
exactly 0, so Gn(0, 200) reads past the table), hence no finite power values
are returned. -/
theorem C7_counterexample :
    pds_model_zhang 1 100 (1 / 10000) (1 / 100) 60 = none ∧
      pds_model_zhang 1024 100 (1 / 10000) (1 / 100) 60 = none := by
  constructor
  · have hinner : inner_loop_pds_zhang 1 (1 / 100) (r_det (1 / 10000) 100) (1 / 10000)
        (1 / 100) 60 = some [] := by
      rw [inner_loop_pds_zhang]
      rfl
    rw [pds_model_zhang_eval hinner, if_pos (show ([] : List ℝ).length = 0 from rfl)]
  · exact pds_model_zhang_none inner_loop_instance_none

lemma pds_P_j_two_eval : pds_P_j 2 (1 / 1) (r_det 1 1) 1 1 1 0 = some 1 := by
  have hterms : mapOpt (fun k => (safe_B_single_k k (r_det 1 1) 1 1 (1 / 1) 1).map
      (fun b => (((2 : ℕ) : ℝ) - (k : ℝ)) / ((2 : ℕ) : ℝ) * b *
        Real.cos (2 * Real.pi * ((0 : ℕ) : ℝ) * (k : ℝ) / ((2 : ℕ) : ℝ))))
      (List.range' 1 (min 2 1 - 1)) = some ([] : List ℝ) := mapOpt_nil _
  rw [pds_P_j_eval hterms safe_B0_one_eval]
  norm_num

lemma pds_eval_two : pds_model_zhang 2 1 1 1 1 = some ([0], [1]) := by
  have hinner : inner_loop_pds_zhang 2 (1 / 1) (r_det 1 1) 1 1 1 = some [1] := by
    rw [inner_loop_pds_zhang, show List.range (2 / 2) = [0] from rfl]
    rw [@mapOpt_cons_some ℕ ℝ (pds_P_j 2 (1 / 1) (r_det 1 1) 1 1 1) 0 1 []
      pds_P_j_two_eval, mapOpt_nil]
    rfl
  rw [pds_model_zhang_eval hinner, if_neg (by simp)]
  have harange : arange (0.5 / 1) ((0.5 / 1) / (([1] : List ℝ).length : ℝ)) = [0] := by
    rw [arange]
    rw [show (0.5 / 1 : ℝ) / ((0.5 / 1) / (([1] : List ℝ).length : ℝ)) = 1 by
      norm_num]
    rw [Nat.ceil_one, show List.range 1 = [0] from rfl]
    simp
  rw [harange]

/-- C7 witness for the amended claim: at N = 2, rate = td = tb = 1,
limit_k = 1 the call returns ([0], [1]); the theorem then gives the two
length facts. -/
theorem C7_witness :
    0 < (1 : ℝ) ∧ pds_model_zhang 2 1 1 1 1 = some ([0], [1]) ∧
      ([1] : List ℝ).length = 2 / 2 ∧ ([0] : List ℝ).length = 2 / 2 :=
  ⟨one_pos, pds_eval_two,
    (C7_output_structure 2 1 1 1 1 [0] [1] one_pos pds_eval_two).1,
    (C7_output_structure 2 1 1 1 1 [0] [1] one_pos pds_eval_two).2.1⟩
